import Mathlib

/-!
Verification of the keyword-analysis core of the resume-builder repository
(`src/ats_optimizer.py`, class `ATSOptimizer`).

Texts are modelled as `List Char`.  The spaCy part-of-speech tagger is an
external capability; it is modelled as a function parameter
`Tagger : List Char → List Token`, exactly as the specification treats it
(an injected dependency with coarse categories NOUN / PROPN / VERB / ADJ /
other).  Case-insensitive matching is modelled with `Char.toLower`
(the ASCII case fold; the concrete patterns in the source are pure ASCII).
Character classes are approximated at the ASCII level that the concrete
patterns exercise: the regex class `\s` by `Char.isWhitespace`, `\d` by
`Char.isDigit`, `\w` by alphanumeric-or-underscore.

Each concrete regular expression of the source is embedded as a
deterministic head-matcher returning the length of the match at the head
of the remaining text (the patterns of the source are deterministic: in
every alternation the branches start with distinct letters, and every
greedy piece is followed by a literal that no character of the greedy
class can start, so no backtracking can change the outcome).  `re.finditer`
is embedded by `scanAll`, which scans left to right and resumes after each
(nonempty) match, exactly like the Python scanner on these patterns.
-/

namespace ATS

/-- Texts and strings of the program are lists of characters. -/
abbrev Str := List Char

/-- Coarse part-of-speech category of a spaCy token (`token.pos_`).  The
source only distinguishes NOUN, PROPN, VERB and ADJ; every other value of
`pos_` behaves like `OTHER`. -/
inductive POS where
  | NOUN | PROPN | VERB | ADJ | OTHER
deriving DecidableEq, Repr

/-- A tagged token: surface text plus coarse category. -/
structure Token where
  text : Str
  pos : POS
deriving DecidableEq, Repr

/-- The tagging capability (`self.nlp`): maps a text to its token list. -/
def Tagger := Str → List Token

/-- Lower-casing of a string, `str.lower()` (ASCII case fold). -/
def lowerStr (s : Str) : Str := s.map Char.toLower

/-- Embedding of `ATSOptimizer.extract_keywords` (lines 34-44): keep the
tokens whose `pos_` is NOUN, VERB or ADJ, lower-case each surface form,
and deduplicate (`list(set(keywords))`; the Python set iteration order is
arbitrary, here fixed by `List.dedup`). -/
def extract_keywords (tag : Tagger) (text : Str) : List Str :=
  (((tag text).filter fun t => t.pos = .NOUN || t.pos = .VERB || t.pos = .ADJ).map
    fun t => lowerStr t.text).dedup

/-- Case-insensitive literal test at the head of the text: does `w`
(given lower-cased) occur at the start of `s` up to case? -/
def lcTake (w : Str) (s : Str) : Bool := (s.take w.length).map Char.toLower == w

/-- The regex class `\s` (ASCII approximation). -/
def wsChar (c : Char) : Bool := c.isWhitespace

/-- Greedy `\s*`: returns the number of characters consumed and the rest. -/
def starWS (s : Str) : Nat × Str :=
  ((s.takeWhile wsChar).length, s.drop (s.takeWhile wsChar).length)

/-- Greedy optional literal character (`\+?` and friends). -/
def optChar (c : Char) (s : Str) : Nat × Str :=
  match s with
  | [] => (0, [])
  | d :: rest => if d == c then (1, rest) else (0, d :: rest)

/-- First case-insensitive literal of `ws` matching at the head of `s`
(the alternatives of each alternation in the source start with distinct
letters, so at most one can match and Python's in-order trial is
deterministic); returns its length. -/
def matchAlt (ws : List Str) (s : Str) : Option Nat :=
  match ws with
  | [] => none
  | w :: rest => if lcTake w s then some w.length else matchAlt rest s

/-- Head-matcher for the label patterns `required:.*?(?=\n|$)` etc.: the
label case-insensitively at the head, then (`.` does not match a newline,
and the lazy star stops at the first position whose lookahead `\n|$`
holds) the remainder of the current line.  Returns the full match length. -/
def matchLabelLine (lab : Str) (s : Str) : Option Nat :=
  if lcTake lab s then
    some (lab.length + ((s.drop lab.length).takeWhile fun c => c != '\n').length)
  else none

/-- Embedding of `re.finditer` for a head-matcher `f` returning match
lengths, with fuel (the fuel is always instantiated with the length of the
text, which suffices because every match consumes at least one character):
scan left to right; at a match of length `n+1` emit the matched span and
resume after it; otherwise advance one character.  A `some 0` (empty
match) is treated as no match; none of the embedded patterns can match
the empty string. -/
def scanAllF (f : Str → Option Nat) : Nat → Str → List Str
  | 0, _ => []
  | _ + 1, [] => []
  | fuel + 1, c :: rest =>
    match f (c :: rest) with
    | some (n + 1) => ((c :: rest).take (n + 1)) :: scanAllF f fuel (rest.drop n)
    | _ => scanAllF f fuel rest

/-- All matches of the head-matcher `f` in `l`, left to right,
non-overlapping (`re.finditer`). -/
def scanAll (f : Str → Option Nat) (l : Str) : List Str := scanAllF f l.length l

/-- The three required-skills label patterns (lines 80-84). -/
def requiredLabels : List Str :=
  ["required:".toList, "must have:".toList, "requirements:".toList]

/-- The three preferred-skills label patterns (lines 93-97). -/
def preferredLabels : List Str :=
  ["preferred:".toList, "nice to have:".toList, "bonus:".toList]

/-- All matches of a list of label patterns: one `finditer` pass per
pattern, passes concatenated in pattern order (the `for pattern in
...patterns` loops). -/
def labelMatches (labels : List Str) (text : Str) : List Str :=
  labels.flatMap fun lab => scanAll (matchLabelLine lab) text

/-- Python `s.split(':', 1)[1]`: the part after the first colon, `none`
when the string has no colon (in the source an `IndexError` would be
raised in that case; the theorem for C4 shows it cannot happen on a
matched span). -/
def splitColonRest : Str → Option Str
  | [] => none
  | c :: rest => if c == ':' then some rest else splitColonRest rest

/-- Python `str.strip()`: drop whitespace from both ends. -/
def stripWS (s : Str) : Str :=
  ((s.dropWhile wsChar).reverse.dropWhile wsChar).reverse

/-- The skills text of one matched span: `match.group(0).split(':', 1)[1]
.strip()` (line 89 / 102).  The `[]` default is dead code: every matched
span contains the colon of its label (theorem for claim C4). -/
def skillsTextOf (m : Str) : Str := stripWS ((splitColonRest m).getD [])

/-- Keywords extracted from every matched span, concatenated
(`analysis['required_skills'].extend(...)`, lines 90 and 103). -/
def skillsFromMatches (tag : Tagger) (ms : List Str) : List Str :=
  ms.flatMap fun m => extract_keywords tag (skillsTextOf m)

/-- Literal `"year"`. -/
def yearWord : Str := "year".toList
/-- Literal `"yr"`. -/
def yrWord : Str := "yr".toList
/-- Literal `"of"`. -/
def ofWord : Str := "of".toList
/-- Literal `"experience"`. -/
def expWord : Str := "experience".toList
/-- Literal `"level:"`. -/
def levelColon : Str := "level:".toList
/-- Literal `"level"`. -/
def levelWord : Str := "level".toList
/-- The five experience-level alternatives `entry|mid|senior|lead|principal`. -/
def levelWords : List Str :=
  ["entry".toList, "mid".toList, "senior".toList, "lead".toList, "principal".toList]

/-- Head-matcher for `(?:years?|yrs?)`: branch `years?` first, then
`yrs?`, each with greedy optional `s` (when `year` matches, giving the
`s` back or switching to the `yr` branch can never rescue a failed
continuation `\s*of...`, so the in-order greedy choice is the regex
outcome).  Returns length consumed and the rest. -/
def matchYears (s : Str) : Option (Nat × Str) :=
  if lcTake yearWord s then
    let r := s.drop 4
    if lcTake ['s'] r then some (5, r.drop 1) else some (4, r)
  else if lcTake yrWord s then
    let r := s.drop 2
    if lcTake ['s'] r then some (3, r.drop 1) else some (2, r)
  else none

/-- Head-matcher for `(\d+)\+?\s*(?:years?|yrs?)\s*of\s*experience`
(line 107).  `\d+` is greedy (backtracking it can never help: a digit can
continue neither `\+?` nor `\s*` nor `y`), likewise each `\s*`. -/
def matchExp1 (s : Str) : Option Nat :=
  let ds := s.takeWhile Char.isDigit
  if ds.isEmpty then none else
    let s1 := s.drop ds.length
    let (a, s2) := optChar '+' s1
    let (b, s3) := starWS s2
    match matchYears s3 with
    | none => none
    | some (y, s4) =>
      let (c, s5) := starWS s4
      if lcTake ofWord s5 then
        let s6 := s5.drop 2
        let (d, s7) := starWS s6
        if lcTake expWord s7 then
          some (ds.length + a + b + y + c + 2 + d + 10)
        else none
      else none

/-- Head-matcher for
`experience\s*level:\s*(entry|mid|senior|lead|principal)` (line 108). -/
def matchExp2 (s : Str) : Option Nat :=
  if lcTake expWord s then
    let s1 := s.drop 10
    let (a, s2) := starWS s1
    if lcTake levelColon s2 then
      let s3 := s2.drop 6
      let (b, s4) := starWS s3
      match matchAlt levelWords s4 with
      | some n => some (10 + a + 6 + b + n)
      | none => none
    else none
  else none

/-- Head-matcher for `(entry|mid|senior|lead|principal)\s*level`
(line 109). -/
def matchExp3 (s : Str) : Option Nat :=
  match matchAlt levelWords s with
  | some n =>
    let s1 := s.drop n
    let (a, s2) := starWS s1
    if lcTake levelWord s2 then some (n + a + 5) else none
  | none => none

/-- All experience-level matches: one `finditer` pass per pattern, in the
fixed pattern order of `experience_patterns` (lines 106-115). -/
def expMatches (text : Str) : List Str :=
  scanAll matchExp1 text ++ scanAll matchExp2 text ++ scanAll matchExp3 text

/-- The apostrophe character (degree keywords contain it). -/
def apos : Char := Char.ofNat 39

/-- The alternatives of the first education pattern
`bachelor's|master's|phd|degree` (line 119). -/
def eduWords1 : List Str :=
  ["bachelor".toList ++ [apos] ++ "s".toList,
   "master".toList ++ [apos] ++ "s".toList,
   "phd".toList, "degree".toList]

/-- The alternatives of the second education pattern `bs|ms|phd`
(line 120). -/
def eduWords2 : List Str := ["bs".toList, "ms".toList, "phd".toList]

/-- Literal `"education:"`. -/
def eduLabel : Str := "education:".toList

/-- Head-matcher for `education:\s*.*?(?=\n|$)` (line 121): the label,
then greedy `\s*` (which, unlike `.`, can cross newlines), then the
remainder up to the next newline or the end. -/
def matchEdu3 (s : Str) : Option Nat :=
  if lcTake eduLabel s then
    let r := s.drop eduLabel.length
    let (a, r2) := starWS r
    some (eduLabel.length + a + (r2.takeWhile fun c => c != '\n').length)
  else none

/-- All education matches: one `finditer` pass per pattern, in the fixed
pattern order of `education_patterns` (lines 118-127). -/
def eduMatches (text : Str) : List Str :=
  scanAll (matchAlt eduWords1) text ++ scanAll (matchAlt eduWords2) text
    ++ scanAll matchEdu3 text

/-- The analysis dictionary built by `analyze_job_description`. -/
structure Analysis where
  required_skills : List Str
  preferred_skills : List Str
  experience_level : List Str
  education_requirements : List Str
  keywords : List Str
deriving DecidableEq, Repr

/-- Embedding of `ATSOptimizer.analyze_job_description` (lines 64-129). -/
def analyze_job_description (tag : Tagger) (text : Str) : Analysis where
  required_skills := skillsFromMatches tag (labelMatches requiredLabels text)
  preferred_skills := skillsFromMatches tag (labelMatches preferredLabels text)
  experience_level := expMatches text
  education_requirements := eduMatches text
  keywords := extract_keywords tag text

/-- Python `set(a) - set(b)`, realized on deduplicated lists (the Python
set iteration order is arbitrary; `List.dedup` fixes one order). -/
def setDiff (a b : List Str) : List Str :=
  a.dedup.filter fun x => !(b.contains x)

/-- Python `', '.join(l)`. -/
def joinComma : List Str → Str
  | [] => []
  | [x] => x
  | x :: y :: rest => x ++ ", ".toList ++ joinComma (y :: rest)

/-- Message head of the required-skills suggestion (line 144). -/
def reqMsgPre : Str := "Consider adding these required skills: ".toList
/-- Message head of the preferred-skills suggestion (line 149). -/
def prefMsgPre : Str := "Consider adding these preferred skills: ".toList
/-- Message head of the experience suggestion (line 153). -/
def expMsgPre : Str := "Ensure your experience matches the required level: ".toList
/-- Message head of the education suggestion (line 157). -/
def eduMsgPre : Str := "Verify you meet the education requirements: ".toList

/-- Embedding of `ATSOptimizer.get_optimization_suggestions`
(lines 131-159). -/
def get_optimization_suggestions (tag : Tagger) (resume_text job_description : Str) :
    List Str :=
  let ja := analyze_job_description tag job_description
  let rk := extract_keywords tag resume_text
  let missing_required := setDiff ja.required_skills rk
  let s1 := if missing_required.isEmpty then []
            else [reqMsgPre ++ joinComma missing_required]
  let missing_preferred := setDiff ja.preferred_skills rk
  let s2 := if missing_preferred.isEmpty then []
            else [prefMsgPre ++ joinComma missing_preferred]
  let s3 := if ja.experience_level.isEmpty then []
            else [expMsgPre ++ joinComma ja.experience_level]
  let s4 := if ja.education_requirements.isEmpty then []
            else [eduMsgPre ++ joinComma ja.education_requirements]
  s1 ++ s2 ++ s3 ++ s4

/-- The regex class `\w` (ASCII approximation: alphanumeric or
underscore). -/
def wordChar (c : Char) : Bool := c.isAlphanum || c == '_'

/-- The punctuation kept by the normalizer. -/
def keptPunct : List Char := ['.', ',', ';', ':', '(', ')']

/-- A character surviving `re.sub(r'[^\w\s.,;:()]', '', text)`
(line 19). -/
def keepChar (c : Char) : Bool := wordChar c || c.isWhitespace || keptPunct.contains c

/-- One step of `re.sub(r'\s+', ' ', text)`: every whitespace character
becomes a space (a run of them is then collapsed by `squeeze`). -/
def normChar (c : Char) : Char := if c.isWhitespace then ' ' else c

/-- Collapse adjacent double spaces (together with `normChar` this is
`re.sub(r'\s+', ' ', text)`: each maximal whitespace run becomes one
space). -/
def squeeze : Str → Str
  | [] => []
  | [c] => [c]
  | a :: b :: rest =>
    if a == ' ' && b == ' ' then squeeze (b :: rest) else a :: squeeze (b :: rest)

/-- Drop leading spaces. -/
def trimLeft (l : Str) : Str := l.dropWhile fun c => c == ' '

/-- Drop spaces at both ends (`str.strip()` on a text whose whitespace
has already been normalized to single spaces). -/
def trimEnds (l : Str) : Str := trimLeft (trimLeft l.reverse).reverse

/-- The text normalizer of the specification: the two `re.sub` passes of
`optimize_text` (lines 19-20) followed by the final `strip` (line 32).
The capitalization pass between them in the source is the tagger-dependent
formatting step that the specification keeps outside the normalizer. -/
def normalize (l : Str) : Str :=
  trimEnds (squeeze ((l.filter keepChar).map normChar))

/-- A simple concrete tagger for witnesses: split on whitespace, tag
every word NOUN (on the one-word fragments used in the witnesses this
agrees with the statistical tagger of the source). -/
def splitWordsAux : Str → Str → List Str
  | [], acc => if acc.isEmpty then [] else [acc.reverse]
  | c :: rest, acc =>
    if wsChar c then
      if acc.isEmpty then splitWordsAux rest [] else acc.reverse :: splitWordsAux rest []
    else splitWordsAux rest (c :: acc)

/-- The words of a text (split on whitespace). -/
def splitWords (s : Str) : List Str := splitWordsAux s []

/-- The concrete witness tagger. -/
def simpleTag : Tagger := fun text => (splitWords text).map fun w => ⟨w, .NOUN⟩

/-! ### Generic facts about the `finditer` embedding -/

theorem scanAllF_congr_fuel (f : Str → Option Nat) :
    ∀ (fuel fuel' : Nat) (l : Str), l.length ≤ fuel → l.length ≤ fuel' →
      scanAllF f fuel l = scanAllF f fuel' l := by
  intro fuel
  induction fuel with
  | zero =>
    intro fuel' l hl _
    have hnil : l = [] := List.length_eq_zero.mp (Nat.le_zero.mp hl)
    subst hnil
    cases fuel' <;> rfl
  | succ k ih =>
    intro fuel' l hl hl'
    cases l with
    | nil => cases fuel' <;> rfl
    | cons c rest =>
      cases fuel' with
      | zero => simp at hl'
      | succ k' =>
        simp only [scanAllF]
        cases hf : f (c :: rest) with
        | none =>
          exact ih k' rest (by simpa using hl) (by simpa using hl')
        | some n =>
          cases n with
          | zero =>
            exact ih k' rest (by simpa using hl) (by simpa using hl')
          | succ n =>
            have hd : (rest.drop n).length ≤ k := by
              simp only [List.length_drop]
              simp only [List.length_cons] at hl
              omega
            have hd' : (rest.drop n).length ≤ k' := by
              simp only [List.length_drop]
              simp only [List.length_cons] at hl'
              omega
            show ((c :: rest).take (n + 1)) :: scanAllF f k (rest.drop n)
              = ((c :: rest).take (n + 1)) :: scanAllF f k' (rest.drop n)
            rw [ih k' (rest.drop n) hd hd']

theorem mem_scanAllF {f : Str → Option Nat} :
    ∀ (fuel : Nat) (l m : Str), m ∈ scanAllF f fuel l →
      ∃ s n, s <:+ l ∧ f s = some (n + 1) ∧ m = s.take (n + 1) := by
  intro fuel
  induction fuel with
  | zero => intro l m hm; simp [scanAllF] at hm
  | succ k ih =>
    intro l m hm
    cases l with
    | nil => simp [scanAllF] at hm
    | cons c rest =>
      simp only [scanAllF] at hm
      cases hf : f (c :: rest) with
      | none =>
        rw [hf] at hm
        obtain ⟨s, n, hs, hfs, hms⟩ := ih rest m hm
        exact ⟨s, n, hs.trans (List.suffix_cons c rest), hfs, hms⟩
      | some n =>
        cases n with
        | zero =>
          rw [hf] at hm
          obtain ⟨s, n, hs, hfs, hms⟩ := ih rest m hm
          exact ⟨s, n, hs.trans (List.suffix_cons c rest), hfs, hms⟩
        | succ n =>
          rw [hf] at hm
          rcases List.mem_cons.mp hm with hm | hm
          · exact ⟨c :: rest, n, List.suffix_refl _, hf, hm⟩
          · obtain ⟨s, n', hs, hfs, hms⟩ := ih (rest.drop n) m hm
            exact ⟨s, n', (hs.trans (List.drop_suffix n rest)).trans
              (List.suffix_cons c rest), hfs, hms⟩

theorem mem_scanAll {f : Str → Option Nat} {l m : Str} (h : m ∈ scanAll f l) :
    ∃ s n, s <:+ l ∧ f s = some (n + 1) ∧ m = s.take (n + 1) :=
  mem_scanAllF l.length l m h

theorem scanAll_eq_nil {f : Str → Option Nat} {l : Str}
    (h : ∀ s, s <:+ l → ∀ n, f s ≠ some (n + 1)) : scanAll f l = [] := by
  cases hs : scanAll f l with
  | nil => rfl
  | cons x xs =>
    obtain ⟨s, n, hsfx, hf, _⟩ := mem_scanAll (l := l) (m := x)
      (by rw [hs]; exact List.mem_cons_self x xs)
    exact absurd hf (h s hsfx n)

theorem infix_of_mem_scanAll {f : Str → Option Nat} {l m : Str}
    (h : m ∈ scanAll f l) : m <:+: l := by
  obtain ⟨s, n, hsfx, _, hm⟩ := mem_scanAll h
  exact hm ▸ (List.take_prefix _ _).isInfix.trans hsfx.isInfix

/-! ### Character-level facts -/

theorem toNat_ofNat_of_lt {n : Nat} (h : n < 55296) : (Char.ofNat n).toNat = n := by
  have hv : n.isValidChar := Or.inl h
  simp only [Char.ofNat, dif_pos hv, Char.ofNatAux, Char.toNat]
  rfl

theorem toLower_toLower (c : Char) : c.toLower.toLower = c.toLower := by
  simp only [Char.toLower]
  by_cases h : c.toNat ≥ 65 ∧ c.toNat ≤ 90
  · rw [if_pos h]
    have h2 : (Char.ofNat (c.toNat + 32)).toNat = c.toNat + 32 :=
      toNat_ofNat_of_lt (by omega)
    rw [if_neg (by rw [h2]; omega)]
  · rw [if_neg h, if_neg h]

theorem lowerStr_idem (s : Str) : lowerStr (lowerStr s) = lowerStr s := by
  simp [lowerStr, List.map_map, Function.comp_def, toLower_toLower]

theorem toLower_eq_colon {c : Char} (h : c.toLower = ':') : c = ':' := by
  simp only [Char.toLower] at h
  by_cases hc : c.toNat ≥ 65 ∧ c.toNat ≤ 90
  · rw [if_pos hc] at h
    have h2 : (Char.ofNat (c.toNat + 32)).toNat = c.toNat + 32 :=
      toNat_ofNat_of_lt (by omega)
    have : (':' : Char).toNat = 58 := by decide
    rw [← h, h2] at this
    omega
  · rwa [if_neg hc] at h

/-! ### Facts about label matches and the colon split -/

theorem lcTake_iff {w s : Str} : lcTake w s = true ↔ (s.take w.length).map Char.toLower = w := by
  simp [lcTake]

theorem splitColonRest_isSome {m : Str} (h : ':' ∈ m) :
    ∃ r, splitColonRest m = some r := by
  induction m with
  | nil => cases h
  | cons c rest ih =>
    by_cases hc : c = ':'
    · exact ⟨rest, by simp [splitColonRest, hc]⟩
    · rcases List.mem_cons.mp h with h | h
      · exact absurd h.symm hc
      · obtain ⟨r, hr⟩ := ih h
        exact ⟨r, by simp [splitColonRest, hc, hr]⟩

theorem colon_mem_of_labelMatch {lab s : Str} {n : Nat} (hlab : ':' ∈ lab)
    (h : matchLabelLine lab s = some (n + 1)) : ':' ∈ s.take (n + 1) := by
  simp only [matchLabelLine] at h
  split at h
  · rename_i hcond
    have htake : (s.take lab.length).map Char.toLower = lab := lcTake_iff.mp hcond
    have hmem : ':' ∈ s.take lab.length := by
      rw [← htake] at hlab
      obtain ⟨c, hc, hcl⟩ := List.mem_map.mp hlab
      exact (toLower_eq_colon hcl) ▸ hc
    have hle : lab.length ≤ n + 1 := by
      have := Option.some.inj h
      omega
    have : ':' ∈ (s.take (n + 1)).take lab.length := by
      rw [List.take_take, min_eq_left hle]
      exact hmem
    exact List.mem_of_mem_take this
  · exact absurd h (by simp)

theorem mem_labelMatches {labels : List Str} {text m : Str}
    (h : m ∈ labelMatches labels text) :
    ∃ lab ∈ labels, ∃ s n, s <:+ text ∧ matchLabelLine lab s = some (n + 1)
      ∧ m = s.take (n + 1) := by
  obtain ⟨lab, hlab, hm⟩ := List.mem_flatMap.mp h
  obtain ⟨s, n, hs, hf, hms⟩ := mem_scanAll hm
  exact ⟨lab, hlab, s, n, hs, hf, hms⟩

/-! ### Claim theorems (first group) -/

/-- Claim C4: `analyze_job_description` is total.  Every span matched by a
required- or preferred-skills pattern contains a colon, so the indexing
after `split(':', 1)` cannot fail; and when a category finds no matches
its field is the empty list. -/
theorem analyze_never_raises (text : Str) :
    (∀ m ∈ labelMatches requiredLabels text ++ labelMatches preferredLabels text,
        ∃ r, splitColonRest m = some r)
    ∧ (∀ tag : Tagger, labelMatches requiredLabels text = [] →
        (analyze_job_description tag text).required_skills = [])
    ∧ (∀ tag : Tagger, labelMatches preferredLabels text = [] →
        (analyze_job_description tag text).preferred_skills = [])
    ∧ (expMatches text = [] → ∀ tag : Tagger,
        (analyze_job_description tag text).experience_level = [])
    ∧ (eduMatches text = [] → ∀ tag : Tagger,
        (analyze_job_description tag text).education_requirements = []) := by
  refine ⟨?_, ?_, ?_, ?_, ?_⟩
  · intro m hm
    have hcolon : ∀ lab ∈ requiredLabels ++ preferredLabels, ':' ∈ lab := by decide
    have : ∃ lab ∈ requiredLabels ++ preferredLabels, ∃ s n, s <:+ text
        ∧ matchLabelLine lab s = some (n + 1) ∧ m = s.take (n + 1) := by
      rcases List.mem_append.mp hm with hm | hm
      · obtain ⟨lab, hl, rest⟩ := mem_labelMatches hm
        exact ⟨lab, List.mem_append.mpr (Or.inl hl), rest⟩
      · obtain ⟨lab, hl, rest⟩ := mem_labelMatches hm
        exact ⟨lab, List.mem_append.mpr (Or.inr hl), rest⟩
    obtain ⟨lab, hl, s, n, _, hf, hms⟩ := this
    exact splitColonRest_isSome (hms ▸ colon_mem_of_labelMatch (hcolon lab hl) hf)
  · intro tag h
    simp [analyze_job_description, skillsFromMatches, h]
  · intro tag h
    simp [analyze_job_description, skillsFromMatches, h]
  · intro h tag
    simp [analyze_job_description, h]
  · intro h tag
    simp [analyze_job_description, h]

/-- Witness for C4 at a concrete input: the span matched in
`"required: python\n"` splits at its colon. -/
theorem analyze_never_raises_witness :
    ∃ r, splitColonRest ("required: python".toList) = some r :=
  (analyze_never_raises ("required: python\n".toList)).1
    ("required: python".toList) (by decide)

/-- Claim C2 counterexample: the source extends (concatenates) the
per-match keyword extractions, so two labeled lines contributing the same
keyword leave a duplicate in `required_skills` — the field is not a
deduplicated set. -/
theorem required_skills_duplicate_counterexample :
    (analyze_job_description simpleTag
        ("required: python\nmust have: python".toList)).required_skills
      = ["python".toList, "python".toList]
    ∧ ¬ (analyze_job_description simpleTag
        ("required: python\nmust have: python".toList)).required_skills.Nodup := by
  constructor
  · decide
  · decide

/-- Claim C3 counterexample: in `"senior level\n3 years of experience"`
the phrase `"senior level"` occurs first (it is a prefix of the text), yet
`experience_level` lists it second, because matches are collected
pattern-by-pattern, not in source order. -/
theorem experience_order_counterexample :
    (analyze_job_description simpleTag
        ("senior level\n3 years of experience".toList)).experience_level
      = ["3 years of experience".toList, "senior level".toList]
    ∧ "senior level\n3 years of experience".toList
        = "senior level".toList ++ '\n' :: "3 years of experience".toList
    ∧ "3 years of experience".toList ≠ "senior level".toList := by
  refine ⟨by decide, by decide, by decide⟩

/-- Claim C8: on `"5+ years of experience required"` the analyzer returns
exactly the full-match phrase `"5+ years of experience"`, and the
suggestion engine emits the experience reminder for every tagger and
resume text. -/
theorem experience_example (tag : Tagger) (resume : Str) :
    (analyze_job_description tag
        ("5+ years of experience required".toList)).experience_level
      = ["5+ years of experience".toList]
    ∧ expMsgPre ++ "5+ years of experience".toList
        ∈ get_optimization_suggestions tag resume
            ("5+ years of experience required".toList) := by
  have hexp : expMatches ("5+ years of experience required".toList)
      = ["5+ years of experience".toList] := by decide
  constructor
  · exact hexp
  · simp only [get_optimization_suggestions, analyze_job_description, hexp]
    simp [joinComma, List.mem_append]

/-! ### The shape of the suggestion list -/

theorem gos_shape (tag : Tagger) (r j : Str) :
    get_optimization_suggestions tag r j =
      (if (setDiff (analyze_job_description tag j).required_skills
            (extract_keywords tag r)).isEmpty then []
        else [reqMsgPre ++ joinComma (setDiff
          (analyze_job_description tag j).required_skills (extract_keywords tag r))])
      ++ (if (setDiff (analyze_job_description tag j).preferred_skills
            (extract_keywords tag r)).isEmpty then []
        else [prefMsgPre ++ joinComma (setDiff
          (analyze_job_description tag j).preferred_skills (extract_keywords tag r))])
      ++ (if (analyze_job_description tag j).experience_level.isEmpty then []
        else [expMsgPre ++ joinComma (analyze_job_description tag j).experience_level])
      ++ (if (analyze_job_description tag j).education_requirements.isEmpty then []
        else [eduMsgPre ++ joinComma
          (analyze_job_description tag j).education_requirements]) := rfl

theorem setDiff_isEmpty_eq (a b : List Str) :
    (setDiff a b).isEmpty = !(a.any fun k => !(b.contains k)) := by
  by_cases h : ∃ k ∈ a, k ∉ b
  · have hany : (a.any fun k => !(b.contains k)) = true := by
      rw [List.any_eq_true]
      obtain ⟨k, hk, hkb⟩ := h
      exact ⟨k, hk, by simp [List.contains, List.elem_eq_mem, hkb]⟩
    rw [hany]
    obtain ⟨k, hk, hkb⟩ := h
    have hmem : k ∈ setDiff a b := by
      simp only [setDiff, List.mem_filter, List.mem_dedup]
      exact ⟨hk, by simp [List.contains, List.elem_eq_mem, hkb]⟩
    cases hs : setDiff a b with
    | nil => rw [hs] at hmem; cases hmem
    | cons x xs => rfl
  · push_neg at h
    have hany : (a.any fun k => !(b.contains k)) = false := by
      rw [List.any_eq_false]
      intro x hx
      simp [List.contains, List.elem_eq_mem, h x hx]
    rw [hany]
    simp only [Bool.not_false]
    rw [List.isEmpty_iff]
    simp only [setDiff]
    apply List.filter_eq_nil_iff.mpr
    intro x hx
    simp [List.contains, List.elem_eq_mem, h x (List.mem_dedup.mp hx)]

theorem if_not_isEmpty {α : Type} (c : Bool) (x : List α) :
    (if (!c) = true then [] else x) = (if c = true then x else []) := by
  cases c <;> simp

/-- Claim C1: the suggestion list is exactly the fixed-order concatenation
of the four optional suggestions, each present iff its condition holds:
the required (resp. preferred) gap iff some required (resp. preferred)
skill is not among the resume keywords, the experience reminder iff
`experience_level` is non-empty, the education reminder iff
`education_requirements` is non-empty. -/
theorem suggestion_list_structure (tag : Tagger) (resume jd : Str) :
    get_optimization_suggestions tag resume jd =
      (if (analyze_job_description tag jd).required_skills.any
            (fun k => !((extract_keywords tag resume).contains k))
        then [reqMsgPre ++ joinComma (setDiff
          (analyze_job_description tag jd).required_skills
          (extract_keywords tag resume))] else [])
      ++ (if (analyze_job_description tag jd).preferred_skills.any
            (fun k => !((extract_keywords tag resume).contains k))
        then [prefMsgPre ++ joinComma (setDiff
          (analyze_job_description tag jd).preferred_skills
          (extract_keywords tag resume))] else [])
      ++ (if (analyze_job_description tag jd).experience_level = [] then []
        else [expMsgPre ++ joinComma (analyze_job_description tag jd).experience_level])
      ++ (if (analyze_job_description tag jd).education_requirements = [] then []
        else [eduMsgPre ++ joinComma
          (analyze_job_description tag jd).education_requirements]) := by
  rw [gos_shape, setDiff_isEmpty_eq, setDiff_isEmpty_eq,
    if_not_isEmpty, if_not_isEmpty]
  simp only [List.isEmpty_iff]

/-! ### Bounds on the suggestion list (claim C10) -/

theorem not_prefix_append {a b : Str} (hab : ¬ a <+: b) (hba : ¬ b <+: a) (t : Str) :
    ¬ a <+: (b ++ t) := fun h =>
  (List.prefix_or_prefix_of_prefix h (List.prefix_append b t)).elim hab hba

theorem isPrefixOf_self_append (p t : Str) : p.isPrefixOf (p ++ t) = true :=
  List.isPrefixOf_iff_prefix.mpr (List.prefix_append _ _)

theorem isPrefixOf_other_append {p q : Str} (hpq : ¬ p <+: q) (hqp : ¬ q <+: p)
    (t : Str) : p.isPrefixOf (q ++ t) = false := by
  rw [Bool.eq_false_iff]
  intro h
  exact not_prefix_append hpq hqp t (List.isPrefixOf_iff_prefix.mp h)

theorem bounded_of_shape (x1 x2 x3 x4 : List Str) (t1 t2 t3 t4 : Str)
    (h1 : x1 = [] ∨ x1 = [reqMsgPre ++ t1]) (h2 : x2 = [] ∨ x2 = [prefMsgPre ++ t2])
    (h3 : x3 = [] ∨ x3 = [expMsgPre ++ t3]) (h4 : x4 = [] ∨ x4 = [eduMsgPre ++ t4]) :
    (x1 ++ x2 ++ x3 ++ x4).length ≤ 4
    ∧ (∀ s ∈ x1 ++ x2 ++ x3 ++ x4,
        reqMsgPre <+: s ∨ prefMsgPre <+: s ∨ expMsgPre <+: s ∨ eduMsgPre <+: s)
    ∧ (x1 ++ x2 ++ x3 ++ x4).countP (fun s => reqMsgPre.isPrefixOf s) ≤ 1
    ∧ (x1 ++ x2 ++ x3 ++ x4).countP (fun s => prefMsgPre.isPrefixOf s) ≤ 1
    ∧ (x1 ++ x2 ++ x3 ++ x4).countP (fun s => expMsgPre.isPrefixOf s) ≤ 1
    ∧ (x1 ++ x2 ++ x3 ++ x4).countP (fun s => eduMsgPre.isPrefixOf s) ≤ 1 := by
  have q12 : ¬ reqMsgPre <+: prefMsgPre := by decide
  have q21 : ¬ prefMsgPre <+: reqMsgPre := by decide
  have q13 : ¬ reqMsgPre <+: expMsgPre := by decide
  have q31 : ¬ expMsgPre <+: reqMsgPre := by decide
  have q14 : ¬ reqMsgPre <+: eduMsgPre := by decide
  have q41 : ¬ eduMsgPre <+: reqMsgPre := by decide
  have q23 : ¬ prefMsgPre <+: expMsgPre := by decide
  have q32 : ¬ expMsgPre <+: prefMsgPre := by decide
  have q24 : ¬ prefMsgPre <+: eduMsgPre := by decide
  have q42 : ¬ eduMsgPre <+: prefMsgPre := by decide
  have q34 : ¬ expMsgPre <+: eduMsgPre := by decide
  have q43 : ¬ eduMsgPre <+: expMsgPre := by decide
  rcases h1 with rfl | rfl <;> rcases h2 with rfl | rfl <;>
    rcases h3 with rfl | rfl <;> rcases h4 with rfl | rfl <;>
    refine ⟨by simp, ?_, ?_, ?_, ?_, ?_⟩ <;>
    simp [List.countP_append, List.countP_cons, List.prefix_append,
      isPrefixOf_self_append,
      isPrefixOf_other_append q12 q21, isPrefixOf_other_append q21 q12,
      isPrefixOf_other_append q13 q31, isPrefixOf_other_append q31 q13,
      isPrefixOf_other_append q14 q41, isPrefixOf_other_append q41 q14,
      isPrefixOf_other_append q23 q32, isPrefixOf_other_append q32 q23,
      isPrefixOf_other_append q24 q42, isPrefixOf_other_append q42 q24,
      isPrefixOf_other_append q34 q43, isPrefixOf_other_append q43 q34]

/-- Claim C10: the suggestion list always has at most four entries; every
entry is one of the four fixed suggestion kinds (recognized by its fixed
message head), and each kind occurs at most once. -/
theorem suggestions_bounded (tag : Tagger) (resume jd : Str) :
    (get_optimization_suggestions tag resume jd).length ≤ 4
    ∧ (∀ s ∈ get_optimization_suggestions tag resume jd,
        reqMsgPre <+: s ∨ prefMsgPre <+: s ∨ expMsgPre <+: s ∨ eduMsgPre <+: s)
    ∧ (get_optimization_suggestions tag resume jd).countP
        (fun s => reqMsgPre.isPrefixOf s) ≤ 1
    ∧ (get_optimization_suggestions tag resume jd).countP
        (fun s => prefMsgPre.isPrefixOf s) ≤ 1
    ∧ (get_optimization_suggestions tag resume jd).countP
        (fun s => expMsgPre.isPrefixOf s) ≤ 1
    ∧ (get_optimization_suggestions tag resume jd).countP
        (fun s => eduMsgPre.isPrefixOf s) ≤ 1 := by
  rw [gos_shape]
  apply bounded_of_shape
  · split
    · exact Or.inl rfl
    · exact Or.inr rfl
  · split
    · exact Or.inl rfl
    · exact Or.inr rfl
  · split
    · exact Or.inl rfl
    · exact Or.inr rfl
  · split
    · exact Or.inl rfl
    · exact Or.inr rfl

/-! ### Keyword extraction (claims C5, C2 amended) -/

theorem mem_extract_keywords {tag : Tagger} {text k : Str} :
    k ∈ extract_keywords tag text ↔ ∃ t ∈ tag text,
      (t.pos = .NOUN ∨ t.pos = .VERB ∨ t.pos = .ADJ) ∧ k = lowerStr t.text := by
  simp only [extract_keywords, List.mem_dedup, List.mem_map, List.mem_filter,
    Bool.or_eq_true, decide_eq_true_eq]
  constructor
  · rintro ⟨t, ⟨ht, hpos⟩, rfl⟩
    exact ⟨t, ht, by tauto, rfl⟩
  · rintro ⟨t, ht, hpos, rfl⟩
    exact ⟨t, ⟨ht, by tauto⟩, rfl⟩

theorem lower_of_mem_extract {tag : Tagger} {s k : Str}
    (hk : k ∈ extract_keywords tag s) : lowerStr k = k := by
  obtain ⟨t, _, _, rfl⟩ := mem_extract_keywords.mp hk
  exact lowerStr_idem _

/-- Claim C5: keyword extraction yields a duplicate-free list of
lower-cased surface forms of NOUN/VERB/ADJ tokens (proper nouns excluded);
on empty or whitespace-only input (for any tagger whose tokens are
nonempty word-like infixes of the input) the result is empty. -/
theorem extract_keywords_spec (tag : Tagger) (text : Str)
    (hcontract : ∀ t ∈ tag text, t.text ≠ [] ∧ t.text <:+: text ∧ ∃ c ∈ t.text, ¬ wsChar c) :
    (extract_keywords tag text).Nodup
    ∧ (∀ k ∈ extract_keywords tag text, lowerStr k = k
        ∧ ∃ t ∈ tag text, (t.pos = .NOUN ∨ t.pos = .VERB ∨ t.pos = .ADJ)
          ∧ k = lowerStr t.text)
    ∧ ((∀ c ∈ text, wsChar c) → extract_keywords tag text = []) := by
  refine ⟨List.nodup_dedup _, ?_, ?_⟩
  · intro k hk
    obtain ⟨t, ht, hpos, hkt⟩ := mem_extract_keywords.mp hk
    exact ⟨by rw [hkt]; exact lowerStr_idem _, t, ht, hpos, hkt⟩
  · intro hws
    have htag : tag text = [] := by
      cases htt : tag text with
      | nil => rfl
      | cons t ts =>
        obtain ⟨_, hinf, c, hc, hcws⟩ :=
          hcontract t (htt ▸ List.mem_cons_self t ts)
        exact absurd (hws c (hinf.sublist.subset hc)) hcws
    simp [extract_keywords, htag]

/-- Witness for C5 at a concrete tagger and whitespace-only input. -/
theorem extract_keywords_spec_witness :
    extract_keywords simpleTag ("  ".toList) = [] :=
  (extract_keywords_spec simpleTag ("  ".toList) (by decide)).2.2 (by decide)

/-- Claim C2 amended: `required_skills` and `preferred_skills` are the
concatenation (`extend`), over the pattern matches in order, of the
per-match keyword extractions; each per-match block is itself
deduplicated, and every element is lower-cased — but the concatenation is
not deduplicated across blocks (see the counterexample). -/
theorem skills_fields_blockwise (tag : Tagger) (jd : Str) :
    ((analyze_job_description tag jd).required_skills
        = ((labelMatches requiredLabels jd).map
            fun m => extract_keywords tag (skillsTextOf m)).flatten
      ∧ ∀ b ∈ (labelMatches requiredLabels jd).map
            (fun m => extract_keywords tag (skillsTextOf m)), b.Nodup)
    ∧ ((analyze_job_description tag jd).preferred_skills
        = ((labelMatches preferredLabels jd).map
            fun m => extract_keywords tag (skillsTextOf m)).flatten
      ∧ ∀ b ∈ (labelMatches preferredLabels jd).map
            (fun m => extract_keywords tag (skillsTextOf m)), b.Nodup)
    ∧ (∀ k ∈ (analyze_job_description tag jd).required_skills
          ++ (analyze_job_description tag jd).preferred_skills, lowerStr k = k) := by
  refine ⟨⟨?_, ?_⟩, ⟨?_, ?_⟩, ?_⟩
  · simp [analyze_job_description, skillsFromMatches, List.flatMap_def]
  · intro b hb
    obtain ⟨m, _, rfl⟩ := List.mem_map.mp hb
    exact List.nodup_dedup _
  · simp [analyze_job_description, skillsFromMatches, List.flatMap_def]
  · intro b hb
    obtain ⟨m, _, rfl⟩ := List.mem_map.mp hb
    exact List.nodup_dedup _
  · intro k hk
    rcases List.mem_append.mp hk with hk | hk <;>
    · simp only [analyze_job_description, skillsFromMatches] at hk
      obtain ⟨m, _, hkm⟩ := List.mem_flatMap.mp hk
      exact lower_of_mem_extract hkm

/-- Witness for the amended C2 at a concrete input. -/
theorem skills_fields_blockwise_witness :
    lowerStr ("python".toList) = "python".toList :=
  (skills_fields_blockwise simpleTag
    ("required: python\nmust have: python".toList)).2.2
    ("python".toList) (by decide)

/-- Claim C3 amended: `experience_level` and `education_requirements`
are collected pattern-by-pattern (each pattern contributes its matches in
top-to-bottom scan order; the three passes of a group are concatenated in
the fixed pattern order, so the combined list need not follow source
order), every entry being the full matched span, verbatim a fragment of
the input text; duplicates are kept. -/
theorem experience_education_pattern_major (tag : Tagger) (text : Str) :
    (analyze_job_description tag text).experience_level
        = scanAll matchExp1 text ++ scanAll matchExp2 text ++ scanAll matchExp3 text
    ∧ (analyze_job_description tag text).education_requirements
        = scanAll (matchAlt eduWords1) text ++ scanAll (matchAlt eduWords2) text
          ++ scanAll matchEdu3 text
    ∧ (∀ m ∈ (analyze_job_description tag text).experience_level
          ++ (analyze_job_description tag text).education_requirements, m <:+: text) := by
  refine ⟨rfl, rfl, ?_⟩
  intro m hm
  have hm' : m ∈ expMatches text ++ eduMatches text := hm
  simp only [expMatches, eduMatches, List.append_assoc, List.mem_append] at hm'
  rcases hm' with h | h | h | h | h | h <;> exact infix_of_mem_scanAll h

/-- Witness for the amended C3 at a concrete input. -/
theorem experience_education_pattern_major_witness :
    "senior level".toList <:+: "senior level\n3 years of experience".toList :=
  (experience_education_pattern_major simpleTag
    ("senior level\n3 years of experience".toList)).2.2
    ("senior level".toList) (by decide)

/-! ### Idempotence of the normalizer (claim C6) -/

/-- No two adjacent spaces. -/
def noDbl (l : Str) : Prop := l.Chain' fun a b => ¬(a = ' ' ∧ b = ' ')

/-- Every character survives the filtering pass and the whitespace
mapping pass unchanged. -/
def Cleaned (l : Str) : Prop := ∀ c ∈ l, keepChar c = true ∧ normChar c = c

/-- Neither end of the list is a space. -/
def NoEnds (l : Str) : Prop :=
  (∀ h, l.head? = some h → h ≠ ' ') ∧ (∀ h, l.getLast? = some h → h ≠ ' ')

theorem mem_squeeze : ∀ (l : Str) (c : Char), c ∈ squeeze l → c ∈ l
  | [], c, h => by simp [squeeze] at h
  | [d], c, h => by simpa [squeeze] using h
  | a :: b :: rest, c, h => by
    rw [squeeze] at h
    split at h
    · exact List.mem_cons_of_mem a (mem_squeeze (b :: rest) c h)
    · rcases List.mem_cons.mp h with rfl | h
      · exact List.mem_cons_self _ _
      · exact List.mem_cons_of_mem a (mem_squeeze (b :: rest) c h)

theorem head_squeeze_space : ∀ (l : Str), (squeeze l).head? = some ' ' → l.head? = some ' '
  | [], h => by simp [squeeze] at h
  | [d], h => by simpa [squeeze] using h
  | a :: b :: rest, h => by
    rw [squeeze] at h
    split at h
    · rename_i hcond
      simp only [Bool.and_eq_true, beq_iff_eq] at hcond
      simp [hcond.1]
    · simp only [List.head?_cons, Option.some.injEq] at h
      simp [h]

theorem squeeze_noDbl : ∀ (l : Str), noDbl (squeeze l)
  | [] => List.chain'_nil
  | [d] => List.chain'_singleton d
  | a :: b :: rest => by
    rw [squeeze]
    split
    · exact squeeze_noDbl (b :: rest)
    · rename_i hcond
      simp only [Bool.and_eq_true, beq_iff_eq, not_and] at hcond
      refine List.chain'_cons'.mpr ⟨?_, squeeze_noDbl (b :: rest)⟩
      intro y hy
      rintro ⟨rfl, rfl⟩
      have hb : (b :: rest).head? = some ' ' :=
        head_squeeze_space (b :: rest) (by simpa using hy)
      simp only [List.head?_cons, Option.some.injEq] at hb
      exact hcond rfl hb

theorem squeeze_of_noDbl : ∀ (l : Str), noDbl l → squeeze l = l
  | [], _ => rfl
  | [_], _ => rfl
  | a :: b :: rest, h => by
    have hrel : ¬(a = ' ' ∧ b = ' ') := by
      have := List.chain'_cons'.mp h
      exact this.1 b rfl
    rw [squeeze]
    rw [if_neg (by simpa using hrel)]
    have htail : noDbl (b :: rest) := List.Chain'.tail h
    rw [squeeze_of_noDbl (b :: rest) htail]

theorem head?_dropWhile {p : Char → Bool} :
    ∀ (l : Str) (h : Char), ((l.dropWhile p).head? = some h) → p h = false
  | [], h, hh => by simp [List.dropWhile] at hh
  | c :: rest, h, hh => by
    rw [List.dropWhile_cons] at hh
    split at hh
    · exact head?_dropWhile rest h hh
    · rename_i hc
      simp only [List.head?_cons, Option.some.injEq] at hh
      subst hh
      exact Bool.not_eq_true _ ▸ hc

theorem dropWhile_eq_self_of_head {p : Char → Bool} (l : Str)
    (h : ∀ c, l.head? = some c → p c = false) : l.dropWhile p = l := by
  cases l with
  | nil => rfl
  | cons c rest =>
    rw [List.dropWhile_cons, if_neg]
    simp [h c rfl]

theorem getLast?_of_suffix {l₁ l₂ : Str} (h : l₁ <:+ l₂) (hne : l₁ ≠ []) :
    l₂.getLast? = l₁.getLast? := by
  obtain ⟨t, rfl⟩ := h
  rw [List.getLast?_append]
  cases hl : l₁.getLast? with
  | none => exact absurd (List.getLast?_eq_none_iff.mp hl) hne
  | some x => rfl

theorem noDbl_reverse {l : Str} (h : noDbl l) : noDbl l.reverse := by
  refine List.chain'_reverse.mpr (h.imp ?_)
  intro a b hab
  rintro ⟨h1, h2⟩
  exact hab ⟨h2, h1⟩

theorem cleaned_trimEnds {l : Str} (h : Cleaned l) : Cleaned (trimEnds l) := by
  intro c hc
  apply h
  simp only [trimEnds, trimLeft] at hc
  have h1 := (List.dropWhile_suffix (l := (List.dropWhile (fun c => c == ' ')
    l.reverse).reverse) (fun c => c == ' ')).sublist.subset hc
  rw [List.mem_reverse] at h1
  have h2 := (List.dropWhile_suffix (l := l.reverse)
    (fun c => c == ' ')).sublist.subset h1
  rwa [List.mem_reverse] at h2

theorem noDbl_trimEnds {l : Str} (h : noDbl l) : noDbl (trimEnds l) := by
  simp only [trimEnds, trimLeft]
  have h1 : noDbl (List.dropWhile (fun c => c == ' ') l.reverse) :=
    (noDbl_reverse h).suffix (List.dropWhile_suffix _)
  have h2 := noDbl_reverse h1
  exact h2.suffix (List.dropWhile_suffix _)

theorem noEnds_trimEnds (l : Str) : NoEnds (trimEnds l) := by
  constructor
  · intro h hh
    have := head?_dropWhile (p := fun c => c == ' ') _ h hh
    simpa using this
  · intro h hh
    simp only [trimEnds] at hh
    set X := (trimLeft l.reverse).reverse with hX
    have hne : trimLeft X ≠ [] := by
      intro hnil
      rw [hnil] at hh
      cases hh
    have hsfx : trimLeft X <:+ X := List.dropWhile_suffix _
    have hlast : X.getLast? = (trimLeft X).getLast? := getLast?_of_suffix hsfx hne
    rw [← hlast, hX, List.getLast?_reverse] at hh
    have := head?_dropWhile (p := fun c => c == ' ') l.reverse h hh
    simpa using this

theorem trimEnds_of_noEnds {l : Str} (h : NoEnds l) : trimEnds l = l := by
  have h1 : trimLeft l.reverse = l.reverse := by
    apply dropWhile_eq_self_of_head
    intro c hc
    rw [List.head?_reverse] at hc
    simp [h.2 c hc]
  rw [trimEnds, h1, List.reverse_reverse]
  apply dropWhile_eq_self_of_head
  intro c hc
  simp [h.1 c hc]

/-- The full invariant of a normalized text. -/
def Normalized (l : Str) : Prop := Cleaned l ∧ noDbl l ∧ NoEnds l

theorem keepChar_space : keepChar ' ' = true := by decide

theorem cleaned_core (l : Str) : Cleaned ((l.filter keepChar).map normChar) := by
  intro c hc
  obtain ⟨d, hd, rfl⟩ := List.mem_map.mp hc
  by_cases hw : d.isWhitespace
  · have : normChar d = ' ' := by simp [normChar, hw]
    rw [this]
    exact ⟨keepChar_space, by simp [normChar]⟩
  · have hnd : normChar d = d := by simp [normChar, hw]
    rw [hnd]
    exact ⟨(List.mem_filter.mp hd).2, hnd⟩

theorem normalize_normalized (l : Str) : Normalized (normalize l) := by
  refine ⟨?_, ?_, ?_⟩
  · exact cleaned_trimEnds (fun c hc => cleaned_core l c (mem_squeeze _ c hc))
  · exact noDbl_trimEnds (squeeze_noDbl _)
  · exact noEnds_trimEnds _

theorem normalize_of_normalized {m : Str} (h : Normalized m) : normalize m = m := by
  obtain ⟨hc, hd, he⟩ := h
  have h1 : m.filter keepChar = m := List.filter_eq_self.mpr fun c hcm => (hc c hcm).1
  have h2 : m.map normChar = m := by
    have := List.map_congr_left (l := m) (f := normChar) (g := id)
      fun c hcm => (hc c hcm).2
    rwa [List.map_id] at this
  rw [normalize, h1, h2, squeeze_of_noDbl m hd, trimEnds_of_noEnds he]

/-- Claim C6: the text normalizer (remove characters outside word
characters, whitespace and `.,;:()`; collapse whitespace runs to a single
space; trim ends) is idempotent. -/
theorem normalize_idempotent (x : Str) : normalize (normalize x) = normalize x :=
  normalize_of_normalized (normalize_normalized x)

/-! ### Line decomposition of the label scans (claim C7) -/

theorem scanAllF_nil (f : Str → Option Nat) : ∀ fuel, scanAllF f fuel [] = []
  | 0 => rfl
  | _ + 1 => rfl

theorem lcTake_append {lab s : Str} (r : Str) (hlen : lab.length ≤ s.length) :
    lcTake lab (s ++ r) = lcTake lab s := by
  rw [lcTake, lcTake, List.take_append_eq_append_take, Nat.sub_eq_zero_of_le hlen]
  simp

theorem lcTake_length_le {lab s : Str} (h : lcTake lab s = true) :
    lab.length ≤ s.length := by
  rw [lcTake_iff] at h
  have hl := congrArg List.length h
  simp only [List.length_map, List.length_take] at hl
  have := Nat.min_le_right lab.length s.length
  omega

theorem matchLabelLine_newline {lab : Str} (hne : lab ≠ []) (hnl : '\n' ∉ lab)
    (t : Str) : matchLabelLine lab ('\n' :: t) = none := by
  cases lab with
  | nil => exact absurd rfl hne
  | cons a lab' =>
    have hcond : lcTake (a :: lab') ('\n' :: t) = false := by
      rw [Bool.eq_false_iff]
      intro hc
      rw [lcTake_iff] at hc
      have hlow : Char.toLower '\n' = '\n' := by decide
      simp only [List.length_cons, List.take_succ_cons, List.map_cons, hlow,
        List.cons.injEq] at hc
      exact hnl (hc.1 ▸ List.mem_cons_self _ _)
    simp [matchLabelLine, hcond]

theorem matchLabelLine_append {lab s : Str} (hnl : '\n' ∉ lab) (hs : '\n' ∉ s)
    (t : Str) :
    matchLabelLine lab (s ++ '\n' :: t) = matchLabelLine lab s := by
  by_cases hlen : lab.length ≤ s.length
  · rw [matchLabelLine, matchLabelLine, lcTake_append _ hlen]
    by_cases hcond : lcTake lab s = true
    · rw [if_pos hcond, if_pos hcond]
      have hdrop : (s ++ '\n' :: t).drop lab.length
          = s.drop lab.length ++ '\n' :: t := by
        rw [List.drop_append_eq_append_drop, Nat.sub_eq_zero_of_le hlen]
        simp
      have hall : ∀ c ∈ s.drop lab.length, (c != '\n') = true := by
        intro c hc
        have hcs : c ∈ s := (List.drop_suffix _ _).sublist.subset hc
        exact bne_iff_ne.mpr fun heq => hs (heq ▸ hcs)
      have hself : List.takeWhile (fun c => c != '\n') (s.drop lab.length)
          = s.drop lab.length := List.takeWhile_eq_self_iff.mpr hall
      rw [hdrop, List.takeWhile_append, if_pos (by rw [hself])]
      have hnil : List.takeWhile (fun c => c != '\n') ('\n' :: t) = [] := by
        simp [List.takeWhile_cons]
      rw [hnil, List.append_nil, hself]
    · rw [if_neg hcond, if_neg hcond]
  · push_neg at hlen
    have hc1 : lcTake lab s = false := by
      rw [Bool.eq_false_iff]
      intro hc
      exact absurd (lcTake_length_le hc) (by omega)
    have hc2 : lcTake lab (s ++ '\n' :: t) = false := by
      rw [Bool.eq_false_iff]
      intro hc
      rw [lcTake_iff] at hc
      have hmem : '\n' ∈ (s ++ '\n' :: t).take lab.length := by
        rw [List.take_append_eq_append_take]
        refine List.mem_append.mpr (Or.inr ?_)
        cases hk : lab.length - s.length with
        | zero => omega
        | succ k => simp [List.take_succ_cons]
      have hlabmem : '\n' ∈ lab := by
        rw [← hc]
        exact List.mem_map.mpr ⟨'\n', hmem, by decide⟩
      exact hnl hlabmem
    simp [matchLabelLine, hc1, hc2]

theorem matchLabelLine_length {lab s : Str} (hs : '\n' ∉ s) {L : Nat}
    (h : matchLabelLine lab s = some L) : L = s.length := by
  rw [matchLabelLine] at h
  split at h
  · rename_i hcond
    have hlen : lab.length ≤ s.length := lcTake_length_le hcond
    have hall : ∀ c ∈ s.drop lab.length, (c != '\n') = true := by
      intro c hc
      have hcs : c ∈ s := (List.drop_suffix _ _).sublist.subset hc
      exact bne_iff_ne.mpr fun heq => hs (heq ▸ hcs)
    rw [List.takeWhile_eq_self_iff.mpr hall] at h
    have hL := Option.some.inj h
    simp only [List.length_drop] at hL
    omega
  · cases h

theorem scanAll_label_append {lab : Str} (hlabne : lab ≠ []) (hlabnl : '\n' ∉ lab) :
    ∀ (s t : Str), '\n' ∉ s →
      scanAll (matchLabelLine lab) (s ++ '\n' :: t)
        = scanAll (matchLabelLine lab) s ++ scanAll (matchLabelLine lab) t := by
  intro s
  induction s with
  | nil =>
    intro t _
    have hf : matchLabelLine lab ('\n' :: t) = none :=
      matchLabelLine_newline hlabne hlabnl t
    show scanAll (matchLabelLine lab) ('\n' :: t) = _
    rw [scanAll]
    show scanAllF _ (t.length + 1) ('\n' :: t) = _
    rw [scanAllF, hf]
    rfl
  | cons c s' ih =>
    intro t hnl
    have hnlc : c ≠ '\n' := fun h => hnl (h ▸ List.mem_cons_self _ _)
    have hnl' : '\n' ∉ s' := fun h => hnl (List.mem_cons_of_mem c h)
    have happ := matchLabelLine_append (s := c :: s') hlabnl
      (fun h => hnl h) t
    cases hf : matchLabelLine lab (c :: s') with
    | none =>
      have hfL : matchLabelLine lab ((c :: s') ++ '\n' :: t) = none := by
        rw [happ, hf]
      show scanAllF _ ((c :: s') ++ '\n' :: t).length ((c :: s') ++ '\n' :: t) = _
      have hlen : ((c :: s') ++ '\n' :: t).length
          = (s' ++ '\n' :: t).length + 1 := by simp
      rw [hlen]
      rw [show (c :: s') ++ '\n' :: t = c :: (s' ++ '\n' :: t) from rfl]
      have hfL2 : matchLabelLine lab (c :: (s' ++ '\n' :: t)) = none := hfL
      rw [scanAllF, hfL2]
      show scanAllF (matchLabelLine lab) (s' ++ '\n' :: t).length (s' ++ '\n' :: t)
          = scanAll (matchLabelLine lab) (c :: s') ++ scanAll (matchLabelLine lab) t
      have hL : scanAllF (matchLabelLine lab) (s' ++ '\n' :: t).length
          (s' ++ '\n' :: t) = scanAll (matchLabelLine lab) (s' ++ '\n' :: t) := rfl
      rw [hL, ih t hnl']
      have hR : scanAll (matchLabelLine lab) (c :: s')
          = scanAll (matchLabelLine lab) s' := by
        rw [scanAll]
        show scanAllF _ (s'.length + 1) (c :: s') = _
        rw [scanAllF, hf]
        rfl
      rw [hR]
    | some L =>
      have hLval : L = s'.length + 1 :=
        matchLabelLine_length (s := c :: s') (fun h => hnl h) hf
      subst hLval
      have hfL : matchLabelLine lab ((c :: s') ++ '\n' :: t)
          = some (s'.length + 1) := by rw [happ, hf]
      show scanAllF _ ((c :: s') ++ '\n' :: t).length ((c :: s') ++ '\n' :: t) = _
      have hlen : ((c :: s') ++ '\n' :: t).length
          = (s' ++ '\n' :: t).length + 1 := by simp
      rw [hlen]
      rw [show (c :: s') ++ '\n' :: t = c :: (s' ++ '\n' :: t) from rfl]
      have hfL2 : matchLabelLine lab (c :: (s' ++ '\n' :: t))
          = some (s'.length + 1) := hfL
      rw [scanAllF, hfL2]
      show ((c :: (s' ++ '\n' :: t)).take (s'.length + 1))
            :: scanAllF (matchLabelLine lab) (s' ++ '\n' :: t).length
              ((s' ++ '\n' :: t).drop s'.length) = _
      have htake : (c :: (s' ++ '\n' :: t)).take (s'.length + 1) = c :: s' := by
        rw [List.take_succ_cons]
        rw [List.take_append_eq_append_take, Nat.sub_self, List.take_length]
        simp
      have hdrop : (s' ++ '\n' :: t).drop s'.length = '\n' :: t := by
        rw [List.drop_append_eq_append_drop, Nat.sub_self, List.drop_length]
        simp
      rw [htake, hdrop]
      have hfuel : scanAllF (matchLabelLine lab) (s' ++ '\n' :: t).length
          ('\n' :: t) = scanAllF (matchLabelLine lab) (t.length + 1) ('\n' :: t) := by
        apply scanAllF_congr_fuel <;> simp
      rw [hfuel, scanAllF, matchLabelLine_newline hlabne hlabnl t]
      have hR : scanAll (matchLabelLine lab) (c :: s')
          = [c :: s'] := by
        rw [scanAll]
        show scanAllF _ (s'.length + 1) (c :: s') = _
        rw [scanAllF, hf]
        show ((c :: s').take (s'.length + 1))
            :: scanAllF (matchLabelLine lab) s'.length (s'.drop s'.length) = _
        rw [List.drop_length, scanAllF_nil, List.take_succ_cons, List.take_length]
      rw [hR]
      rfl

/-- Join a list of newline-free lines with newline separators. -/
def joinLines : List Str → Str
  | [] => []
  | [l] => l
  | l :: l' :: ls => l ++ '\n' :: joinLines (l' :: ls)

theorem scanAll_joinLines {lab : Str} (hne : lab ≠ []) (hnl : '\n' ∉ lab) :
    ∀ (ls : List Str), (∀ l ∈ ls, '\n' ∉ l) →
      scanAll (matchLabelLine lab) (joinLines ls)
        = ls.flatMap fun l => scanAll (matchLabelLine lab) l := by
  intro ls
  induction ls with
  | nil => intro _; rfl
  | cons l ls ih =>
    intro hl
    cases ls with
    | nil => simp [joinLines]
    | cons l' ls' =>
      rw [joinLines, scanAll_label_append hne hnl l _ (hl l (List.mem_cons_self _ _)),
        ih fun x hx => hl x (List.mem_cons_of_mem l hx)]
      simp

/-- Claim C7: removing a line from a job description (in particular a
required-skills line, i.e. one matched by the required patterns) cannot
add new elements to `required_skills`: every keyword extracted from the
shortened text is also extracted from the full text. -/
theorem required_skills_remove_line_monotone (tag : Tagger) (A B : List Str)
    (L : Str) (hnl : ∀ l ∈ A ++ L :: B, '\n' ∉ l)
    (hmatch : labelMatches requiredLabels L ≠ []) :
    ∀ k ∈ (analyze_job_description tag (joinLines (A ++ B))).required_skills,
      k ∈ (analyze_job_description tag (joinLines (A ++ L :: B))).required_skills := by
  intro k hk
  have hlabs : ∀ lab ∈ requiredLabels, lab ≠ [] ∧ '\n' ∉ lab := by decide
  have hnlAB : ∀ l ∈ A ++ B, '\n' ∉ l := by
    intro l hl
    rcases List.mem_append.mp hl with h | h
    · exact hnl l (List.mem_append.mpr (Or.inl h))
    · exact hnl l (List.mem_append.mpr (Or.inr (List.mem_cons_of_mem L h)))
  simp only [analyze_job_description, skillsFromMatches] at hk ⊢
  obtain ⟨m, hm, hkm⟩ := List.mem_flatMap.mp hk
  obtain ⟨lab, hlab, hmscan⟩ := List.mem_flatMap.mp hm
  rw [scanAll_joinLines (hlabs lab hlab).1 (hlabs lab hlab).2 _ hnlAB] at hmscan
  obtain ⟨l, hlAB, hml⟩ := List.mem_flatMap.mp hmscan
  have hlfull : l ∈ A ++ L :: B := by
    rcases List.mem_append.mp hlAB with h | h
    · exact List.mem_append.mpr (Or.inl h)
    · exact List.mem_append.mpr (Or.inr (List.mem_cons_of_mem L h))
  refine List.mem_flatMap.mpr ⟨m, ?_, hkm⟩
  refine List.mem_flatMap.mpr ⟨lab, hlab, ?_⟩
  rw [scanAll_joinLines (hlabs lab hlab).1 (hlabs lab hlab).2 _ hnl]
  exact List.mem_flatMap.mpr ⟨l, hlfull, hml⟩

/-- Witness for C7 at a concrete input. -/
theorem required_skills_remove_line_monotone_witness :
    "python".toList ∈ (analyze_job_description simpleTag
      (joinLines (([] : List Str)
        ++ "required: sql".toList :: ["requirements: python".toList]))).required_skills :=
  required_skills_remove_line_monotone simpleTag [] ["requirements: python".toList]
    ("required: sql".toList) (by decide) (by decide) ("python".toList) (by decide)

/-! ### Plain prose yields an empty analysis (claim C9) -/

/-- Case-insensitive occurrence: `w` (given lower-cased) occurs somewhere
in `l`. -/
def occursCI (w l : Str) : Prop := w <:+: l.map Char.toLower

instance instDecidableOccursCI (w l : Str) : Decidable (occursCI w l) :=
  inferInstanceAs (Decidable (w <:+: l.map Char.toLower))

theorem occursCI_of_lcTake {w w' s' s l : Str} (hw : w <+: w')
    (h : lcTake w' s' = true) (hs' : s' <:+ s) (hs : s <:+ l) : occursCI w l := by
  have h1 : w' <+: s'.map Char.toLower := by
    rw [lcTake_iff] at h
    rw [← h, List.map_take]
    exact List.take_prefix _ _
  have h2 : s'.map Char.toLower <:+ l.map Char.toLower :=
    List.IsSuffix.map Char.toLower (hs'.trans hs)
  exact ((hw.trans h1).isInfix).trans h2.isInfix

theorem matchLabelLine_lcTake {lab s : Str} {n : Nat}
    (h : matchLabelLine lab s = some n) : lcTake lab s = true := by
  rw [matchLabelLine] at h
  split at h
  · assumption
  · cases h

theorem scanAll_label_nil {lab text : Str} (h : ¬ occursCI lab text) :
    scanAll (matchLabelLine lab) text = [] := by
  apply scanAll_eq_nil
  intro s hs n hf
  exact h (occursCI_of_lcTake (List.prefix_refl lab) (matchLabelLine_lcTake hf)
    (List.suffix_refl s) hs)

theorem matchAlt_some : ∀ {ws : List Str} {s : Str} {n : Nat},
    matchAlt ws s = some n → ∃ w ∈ ws, lcTake w s = true := by
  intro ws
  induction ws with
  | nil => intro s n h; cases h
  | cons w ws ih =>
    intro s n h
    rw [matchAlt] at h
    split at h
    · exact ⟨w, List.mem_cons_self _ _, by assumption⟩
    · obtain ⟨w', hw', hc⟩ := ih h
      exact ⟨w', List.mem_cons_of_mem w hw', hc⟩

theorem matchExp1_digit {s : Str} {L : Nat} (h : matchExp1 s = some L) :
    ∃ c ∈ s, c.isDigit = true := by
  rw [matchExp1] at h
  split at h
  · cases h
  · rename_i hne
    have hne' : s.takeWhile Char.isDigit ≠ [] := by
      simpa [List.isEmpty_iff] using hne
    obtain ⟨c, hc⟩ := List.exists_mem_of_ne_nil _ hne'
    exact ⟨c, (List.takeWhile_prefix _).sublist.subset hc,
      List.mem_takeWhile_imp hc⟩

theorem matchExp2_level {s : Str} {L : Nat} (h : matchExp2 s = some L) :
    ∃ s', s' <:+ s ∧ lcTake levelColon s' = true := by
  simp only [matchExp2, starWS] at h
  split at h
  · split at h
    · rename_i h2
      exact ⟨_, (List.drop_suffix _ _).trans (List.drop_suffix _ _), h2⟩
    · cases h
  · cases h

theorem matchExp3_level {s : Str} {L : Nat} (h : matchExp3 s = some L) :
    ∃ s', s' <:+ s ∧ lcTake levelWord s' = true := by
  rw [matchExp3] at h
  cases hma : matchAlt levelWords s with
  | none => rw [hma] at h; cases h
  | some n =>
    rw [hma] at h
    simp only [starWS] at h
    split at h
    · rename_i h2
      exact ⟨_, (List.drop_suffix _ _).trans (List.drop_suffix _ _), h2⟩
    · cases h

theorem matchEdu3_label {s : Str} {L : Nat} (h : matchEdu3 s = some L) :
    lcTake eduLabel s = true := by
  rw [matchEdu3] at h
  split at h
  · assumption
  · cases h

theorem expMatches_nil {text : Str} (hdig : ∀ c ∈ text, ¬ c.isDigit = true)
    (hlevel : ¬ occursCI levelWord text) : expMatches text = [] := by
  have h1 : scanAll matchExp1 text = [] := by
    apply scanAll_eq_nil
    intro s hs n hf
    obtain ⟨c, hc, hcd⟩ := matchExp1_digit hf
    exact hdig c (hs.sublist.subset hc) hcd
  have h2 : scanAll matchExp2 text = [] := by
    apply scanAll_eq_nil
    intro s hs n hf
    obtain ⟨s', hs', hc⟩ := matchExp2_level hf
    exact hlevel (occursCI_of_lcTake (by decide) hc hs' hs)
  have h3 : scanAll matchExp3 text = [] := by
    apply scanAll_eq_nil
    intro s hs n hf
    obtain ⟨s', hs', hc⟩ := matchExp3_level hf
    exact hlevel (occursCI_of_lcTake (List.prefix_refl _) hc hs' hs)
  rw [expMatches, h1, h2, h3]
  rfl

theorem eduMatches_nil {text : Str}
    (hwords : ∀ w ∈ eduWords1 ++ eduWords2, ¬ occursCI w text)
    (hlabel : ¬ occursCI eduLabel text) : eduMatches text = [] := by
  have h1 : scanAll (matchAlt eduWords1) text = [] := by
    apply scanAll_eq_nil
    intro s hs n hf
    obtain ⟨w, hw, hc⟩ := matchAlt_some hf
    exact hwords w (List.mem_append.mpr (Or.inl hw))
      (occursCI_of_lcTake (List.prefix_refl _) hc (List.suffix_refl s) hs)
  have h2 : scanAll (matchAlt eduWords2) text = [] := by
    apply scanAll_eq_nil
    intro s hs n hf
    obtain ⟨w, hw, hc⟩ := matchAlt_some hf
    exact hwords w (List.mem_append.mpr (Or.inr hw))
      (occursCI_of_lcTake (List.prefix_refl _) hc (List.suffix_refl s) hs)
  have h3 : scanAll matchEdu3 text = [] := by
    apply scanAll_eq_nil
    intro s hs n hf
    exact hlabel (occursCI_of_lcTake (List.prefix_refl _) (matchEdu3_label hf)
      (List.suffix_refl s) hs)
  rw [eduMatches, h1, h2, h3]
  rfl

/-- Claim C9: a job description that contains none of the six section
labels, no digit and no occurrence of `level` (so no experience
phrasing), and none of the degree keywords nor an `education:` label,
yields an analysis whose four requirement fields are all empty; and the
suggestion list is empty when the resume already contains every
whole-document keyword of the job description. -/
theorem plain_prose_empty (tag : Tagger) (resume jd : Str)
    (hlab : ∀ lab ∈ requiredLabels ++ preferredLabels, ¬ occursCI lab jd)
    (hdig : ∀ c ∈ jd, ¬ c.isDigit = true)
    (hlevel : ¬ occursCI levelWord jd)
    (hedu : ∀ w ∈ eduWords1 ++ eduWords2, ¬ occursCI w jd)
    (heduLab : ¬ occursCI eduLabel jd)
    (hkw : ∀ k ∈ extract_keywords tag jd, k ∈ extract_keywords tag resume) :
    (analyze_job_description tag jd).required_skills = []
    ∧ (analyze_job_description tag jd).preferred_skills = []
    ∧ (analyze_job_description tag jd).experience_level = []
    ∧ (analyze_job_description tag jd).education_requirements = []
    ∧ get_optimization_suggestions tag resume jd = [] := by
  have hreqm : labelMatches requiredLabels jd = [] := by
    apply List.flatMap_eq_nil_iff.mpr
    intro lab hl
    exact scanAll_label_nil (hlab lab (List.mem_append.mpr (Or.inl hl)))
  have hprefm : labelMatches preferredLabels jd = [] := by
    apply List.flatMap_eq_nil_iff.mpr
    intro lab hl
    exact scanAll_label_nil (hlab lab (List.mem_append.mpr (Or.inr hl)))
  have hexpm : expMatches jd = [] := expMatches_nil hdig hlevel
  have hedum : eduMatches jd = [] := eduMatches_nil hedu heduLab
  have hreq : (analyze_job_description tag jd).required_skills = [] := by
    simp [analyze_job_description, skillsFromMatches, hreqm]
  have hpref : (analyze_job_description tag jd).preferred_skills = [] := by
    simp [analyze_job_description, skillsFromMatches, hprefm]
  have hexp : (analyze_job_description tag jd).experience_level = [] := hexpm
  have hedu' : (analyze_job_description tag jd).education_requirements = [] := hedum
  refine ⟨hreq, hpref, hexp, hedu', ?_⟩
  rw [gos_shape, hreq, hpref, hexp, hedu']
  simp [setDiff]

/-- Witness for C9 at a concrete plain-prose input. -/
theorem plain_prose_empty_witness :
    get_optimization_suggestions simpleTag
      ("we enjoy collaborative teamwork".toList)
      ("we enjoy collaborative teamwork".toList) = [] :=
  (plain_prose_empty simpleTag ("we enjoy collaborative teamwork".toList)
    ("we enjoy collaborative teamwork".toList)
    (by decide) (by decide) (by decide) (by decide) (by decide)
    (by decide)).2.2.2.2

end ATS
